import Mathlib

/-!
Verification development for the response post-processing and
trace-reconstruction pipeline of a Streamlit chat front-end (src/app.py).

The embedding models:
* dynamic JSON-like values (`Json`) as produced by `json.loads`, with
  Python-style membership (`in`) and subscript (`[...]`) semantics,
  including the exceptions they raise (`PyErr`);
* the instruction/result envelope unwrapping block (app.py lines 194-202);
* the citation-injection block (app.py lines 204-215), including the
  `re.sub` placeholder rewrite — `re.sub` with the fixed pattern
  `%\[(\d+)\]%` is modelled by an explicit leftmost, non-overlapping
  scanner (`subAux`);
* the trace aggregation / sidebar step-numbering loop (app.py lines
  222-278);
* the per-turn session-state mutation discipline (app.py lines 178-220).

Arrays and objects inside `Json` are represented as cons-chains
(`arrCons`/`objCons`) rather than nested `List`s so that decidable
equality is available structurally; the code under analysis treats the
values dynamically, so no well-formedness of the chains is needed.
-/

/-- Dynamic JSON-like value, the result shape of `json.loads`.  Objects
are association chains preserving key order; arrays are element chains. -/
inductive Json where
  | str (s : String)
  | num (n : Int)
  | bool (b : Bool)
  | null
  | arrNil
  | arrCons (hd tl : Json)
  | objNil
  | objCons (k : String) (v : Json) (tl : Json)
deriving DecidableEq

/-- Python exceptions that the modelled code paths can raise.  Only
`json.JSONDecodeError` is ever caught by the source (modelled by the
`Option` parse oracle), so these propagate. -/
inductive PyErr where
  | keyError (k : String)
  | typeError
deriving DecidableEq

/-- Key membership in an object chain (Python `key in dict`). -/
def objHasKey : Json → String → Bool
  | .objCons k _ t, key => k == key || objHasKey t key
  | _, _ => false

/-- First value stored under a key in an object chain (`dict[key]` when
present). -/
def objGet : Json → String → Option Json
  | .objCons k v t, key => if k == key then some v else objGet t key
  | _, _ => none

/-- Whether an array chain has the string `s` as an element (Python
`"s" in list`; equality with non-string elements is `False`). -/
def arrHasStr : Json → String → Bool
  | .arrCons h t, s => h == .str s || arrHasStr t s
  | _, _ => false

/-- Substring test (Python `needle in haystack` on strings). -/
def strHasSub (hay needle : String) : Bool := decide (needle.data <:+: hay.data)

/-- Python `key in value` semantics: key membership for dicts, element
membership for lists, substring for strings, `TypeError` otherwise. -/
def pyContains (j : Json) (key : String) : Except PyErr Bool :=
  match j with
  | .objNil => .ok (objHasKey j key)
  | .objCons _ _ _ => .ok (objHasKey j key)
  | .arrNil => .ok (arrHasStr j key)
  | .arrCons _ _ => .ok (arrHasStr j key)
  | .str s => .ok (strHasSub s key)
  | _ => .error .typeError

/-- Python `value[key]` semantics for a string key: dict lookup raising
`KeyError` when absent, `TypeError` on every non-dict value. -/
def pyGetItem (j : Json) (key : String) : Except PyErr Json :=
  match j with
  | .objNil => .error (.keyError key)
  | .objCons _ _ _ =>
    match objGet j key with
    | some v => .ok v
    | none => .error (.keyError key)
  | _ => .error .typeError

/-- Envelope unwrapping (app.py lines 194-202).  `parsed` is the outcome
of `json.loads(raw, strict=False)`: `none` models `JSONDecodeError`
(which the source catches and ignores), `some j` the parsed value.  The
source then runs
`if "instruction" in output_json and "result" in output_json:
   output_text = output_json["result"]`,
so membership errors and the subscript error propagate uncaught. -/
def unwrapEnvelope (raw : String) (parsed : Option Json) : Except PyErr Json :=
  match parsed with
  | none => .ok (.str raw)
  | some j =>
    match pyContains j "instruction" with
    | .error e => .error e
    | .ok false => .ok (.str raw)
    | .ok true =>
      match pyContains j "result" with
      | .error e => .error e
      | .ok false => .ok (.str raw)
      | .ok true => pyGetItem j "result"

/-- Innermost location record of a retrieved reference. -/
structure S3Location where
  uri : String
deriving DecidableEq

/-- Location record of a retrieved reference. -/
structure RefLocation where
  s3Location : S3Location
deriving DecidableEq

/-- One retrieved reference of a citation (`retrieved_ref` in the
source); the code reads `retrieved_ref["location"]["s3Location"]["uri"]`. -/
structure RetrievedReference where
  location : RefLocation
deriving DecidableEq

/-- One citation returned by the agent. -/
structure Citation where
  generatedResponsePart : Json
  retrievedReferences : List RetrievedReference
deriving DecidableEq

/-- Decimal digit character. -/
def digitChar (d : Nat) : Char := Char.ofNat (48 + d)

/-- Fuel-driven decimal printing accumulator (most significant digit
first once the accumulator is reversed into place). -/
def natDigitsAux : Nat → Nat → List Char → List Char
  | 0, _, acc => acc
  | _, 0, acc => acc
  | f + 1, n + 1, acc => natDigitsAux f ((n + 1) / 10) (digitChar ((n + 1) % 10) :: acc)

/-- Decimal representation of a natural number, as Python `str`/f-string
formatting of a non-negative int produces it. -/
def natRepr (n : Nat) : List Char :=
  if n = 0 then ['0'] else natDigitsAux (n + 1) n []

/-- Citation marker `[<n>]` (source: `citation_marker = f"[{citation_num}]"`). -/
def citationMarker (n : Nat) : String := "[" ++ ⟨natRepr n⟩ ++ "]"

/-- One appended location line (source:
`f"\n<br>{citation_marker} {retrieved_ref['location']['s3Location']['uri']}"`). -/
def refLine (n : Nat) (r : RetrievedReference) : String :=
  "\n<br>" ++ citationMarker n ++ " " ++ r.location.s3Location.uri

/-- Inner loop of the citation-location builder: lines for the references
of one citation, threading the running `citation_num`. -/
def refsLocsFrom : Nat → List RetrievedReference → String × Nat
  | n, [] => ("", n)
  | n, r :: rs =>
    let p := refsLocsFrom (n + 1) rs
    (refLine n r ++ p.1, p.2)

/-- Outer loop of the citation-location builder (app.py lines 206-214):
iterate citations in order, then each citation's references in order,
assigning each individual reference the next `citation_num` starting
from the given seed. -/
def citationLocsFrom : Nat → List Citation → String × Nat
  | n, [] => ("", n)
  | n, c :: cs =>
    let p := refsLocsFrom n c.retrievedReferences
    let q := citationLocsFrom p.2 cs
    (p.1 ++ q.1, q.2)

/-- Attempt to match the placeholder pattern `%\[(\d+)\]%` at the head of
the input; on success, return the captured digit group and the remaining
input after the match. -/
def matchPlaceholder (l : List Char) : Option (List Char × List Char) :=
  match l with
  | '%' :: '[' :: r =>
    match r.takeWhile Char.isDigit, r.dropWhile Char.isDigit with
    | [], _ => none
    | d :: ds, ']' :: '%' :: rest => some (d :: ds, rest)
    | _ :: _, _ => none
  | _ => none

/-- Replacement text `<sup>[\1]</sup>` instantiated with a digit group. -/
def replMarker (ds : List Char) : List Char := "<sup>[".data ++ ds ++ "]</sup>".data

/-- Fuel-driven left-to-right global substitution: at each position, if
the placeholder pattern matches, emit the replacement and continue after
the match; otherwise emit the character and advance.  This is exactly the
leftmost, non-overlapping semantics of `re.sub` for this pattern.  The
fuel only needs to dominate the input length. -/
def subAux : Nat → List Char → List Char
  | 0, l => l
  | _ + 1, [] => []
  | f + 1, c :: cs =>
    match matchPlaceholder (c :: cs) with
    | some (ds, rest) => replMarker ds ++ subAux f rest
    | none => c :: subAux f cs

/-- Global substitution of `%[<digits>]%` placeholders, as performed by
`re.sub(r"%\[(\d+)\]%", r"<sup>[\1]</sup>", output_text)`. -/
def subPlaceholders (l : List Char) : List Char := subAux l.length l

/-- String-level wrapper of the placeholder substitution. -/
def subPlaceholdersStr (s : String) : String := ⟨subPlaceholders s.data⟩

/-- Citation-injection block (app.py lines 204-215): when the citations
list is non-empty, rewrite the placeholders and append a newline followed
by the accumulated location lines; otherwise leave the text untouched. -/
def injectCitations (text : String) (citations : List Citation) : String :=
  if 0 < citations.length then
    subPlaceholdersStr text ++ "\n" ++ (citationLocsFrom 1 citations).1
  else text

/-- One chat message held in `st.session_state.messages`.  Assistant
content is whatever value the processing produced, hence `Json`. -/
structure ChatMessage where
  role : String
  content : Json
deriving DecidableEq

/-- One raw trace event: an opaque mapping, as emitted by the agent. -/
abbrev Event := List (String × Json)

/-- The raw `trace` mapping of a response: trace-kind name to the ordered
list of its events. -/
abbrev RawTrace := List (String × List Event)

/-- First-match association-list lookup (Python `dict` access for dicts
built without duplicate keys). -/
def alookup {κ α : Type} [DecidableEq κ] : List (κ × α) → κ → Option α
  | [], _ => none
  | (k2, v) :: t, k => if k2 = k then some v else alookup t k

/-- Fixed phase table (source `trace_types_map`, app.py lines 222-226). -/
def trace_types_map : List (String × List String) :=
  [("Pre-Processing", ["preGuardrailTrace", "preProcessingTrace"]),
   ("Orchestration", ["orchestrationTrace"]),
   ("Post-Processing", ["postProcessingTrace", "postGuardrailTrace"])]

/-- Fixed info-field table (source `trace_info_types_map`, app.py lines
228-232). -/
def trace_info_types_map : List (String × List String) :=
  [("preProcessingTrace", ["modelInvocationInput", "modelInvocationOutput"]),
   ("orchestrationTrace",
    ["invocationInput", "modelInvocationInput", "modelInvocationOutput",
     "observation", "rationale"]),
   ("postProcessingTrace", ["modelInvocationInput", "modelInvocationOutput", "observation"])]

/-- Scan the registered info-field names in order and return the first
one present in the event together with its value (the loop over
`trace_info_types` with its `break`, app.py lines 254-261). -/
def firstInfoField : List String → Event → Option (String × Json)
  | [], _ => none
  | f :: fs, ev =>
    match alookup ev f with
    | some v => some (f, v)
    | none => firstInfoField fs ev

/-- Step groups in insertion order: `trace_steps` as a Python dict from
trace id to the list of grouped events. -/
abbrev Groups := List (Json × List Event)

/-- Grouping update of the registered-kind branch: create the key with a
singleton list, or append to the existing key's list, keeping dict
insertion order. -/
def insertAppend (gs : Groups) (k : Json) (ev : Event) : Groups :=
  match gs with
  | [] => [(k, [ev])]
  | (k2, evs) :: t =>
    if k2 = k then (k2, evs ++ [ev]) :: t else (k2, evs) :: insertAppend t k ev

/-- Plain Python dict assignment `trace_steps[trace_id] = v`: replace the
value at an existing key in place, or append a new key at the end. -/
def insertReplace (gs : Groups) (k : Json) (v : List Event) : Groups :=
  match gs with
  | [] => [(k, v)]
  | (k2, evs) :: t =>
    if k2 = k then (k2, v) :: t else (k2, evs) :: insertReplace t k v

/-- Turn an event mapping into a `Json` object chain (used when the code
wraps an event as `{trace_type: trace}`). -/
def objOf : List (String × Json) → Json
  | [] => .objNil
  | (k, v) :: t => .objCons k v (objOf t)

/-- Per-event processing for a trace-kind with registered info fields
(app.py lines 252-261): use the first present field, read
`trace[trace_info_type]["traceId"]`, and group the entire event under
that id.  Events matching no field are dropped silently. -/
def processRegEvent (fields : List String) (gs : Groups) (ev : Event) : Except PyErr Groups :=
  match firstInfoField fields ev with
  | none => .ok gs
  | some (_, sub) =>
    match pyGetItem sub "traceId" with
    | .error e => .error e
    | .ok tid => .ok (insertAppend gs tid ev)

/-- Per-event processing for a trace-kind with no registered info fields
(app.py lines 262-268): read the top-level `traceId` and assign the
wrapped event, replacing any previous value at that id. -/
def processUnregEvent (kind : String) (gs : Groups) (ev : Event) : Except PyErr Groups :=
  match alookup ev "traceId" with
  | some tid => .ok (insertReplace gs tid [[(kind, objOf ev)]])
  | none => .error (.keyError "traceId")

/-- Group one trace-kind's event list into steps (`trace_steps`), using
the registered info fields when the kind has them. -/
def groupKindEvents (kind : String) (events : List Event) : Except PyErr Groups :=
  match alookup trace_info_types_map kind with
  | some fields => events.foldlM (processRegEvent fields) []
  | none => events.foldlM (processUnregEvent kind) []

/-- One displayed trace step: its global number, the shared trace id, and
the grouped events. -/
structure TraceStep where
  stepNumber : Nat
  traceId : Json
  events : List Event
deriving DecidableEq

/-- Assign consecutive step numbers to the groups, starting at the given
counter, and return the counter after the last group (the
`Trace Step {step_num}` loop, app.py lines 271-276). -/
def numberGroups : Nat → Groups → List TraceStep × Nat
  | n, [] => ([], n)
  | n, (tid, evs) :: t =>
    let p := numberGroups (n + 1) t
    (⟨n, tid, evs⟩ :: p.1, p.2)

/-- Process the trace-kinds of one phase in order (app.py lines 245-276):
each kind present in the raw trace marks the phase as having trace data
and contributes its numbered groups in order. -/
def processPhaseKinds (raw : RawTrace) : List String → Bool → Nat →
    Except PyErr (Bool × List TraceStep × Nat)
  | [], hasTrace, n => .ok (hasTrace, [], n)
  | k :: rest, hasTrace, n =>
    match alookup raw k with
    | none => processPhaseKinds raw rest hasTrace n
    | some events =>
      match groupKindEvents k events with
      | .error e => .error e
      | .ok gs =>
        let p := numberGroups n gs
        match processPhaseKinds raw rest true p.2 with
        | .error e => .error e
        | .ok (ht, more, n2) => .ok (ht, p.1 ++ more, n2)

/-- Rendered result of one phase: its label and either its step list, or
`none` when the phase had no trace data and the sidebar shows `None`. -/
structure PhaseResult where
  phase : String
  steps : Option (List TraceStep)
deriving DecidableEq

/-- Process the phases in display order, threading the global `step_num`
counter across them (app.py lines 239-278). -/
def aggregatePhases (raw : RawTrace) : List (String × List String) → Nat →
    Except PyErr (List PhaseResult × Nat)
  | [], n => .ok ([], n)
  | (label, kinds) :: rest, n =>
    match processPhaseKinds raw kinds false n with
    | .error e => .error e
    | .ok (ht, steps, n1) =>
      match aggregatePhases raw rest n1 with
      | .error e => .error e
      | .ok (prs, n2) => .ok (⟨label, if ht then some steps else none⟩ :: prs, n2)

/-- Whole trace-sidebar aggregation: the three phases in display order,
with the global step counter seeded at 1. -/
def aggregateTrace (raw : RawTrace) : Except PyErr (List PhaseResult × Nat) :=
  aggregatePhases raw trace_types_map 1

/-- Steps rendered for a phase (empty when the phase shows `None`). -/
def phaseSteps (pr : PhaseResult) : List TraceStep := pr.steps.getD []

/-- All steps of an aggregation outcome in display order. -/
def allSteps (x : Except PyErr (List PhaseResult × Nat)) : Option (List TraceStep) :=
  match x with
  | .ok (prs, _) => some ((prs.map phaseSteps).flatten)
  | .error _ => none

/-- Step numbers of an aggregation outcome in display order. -/
def stepNumbersOf (x : Except PyErr (List PhaseResult × Nat)) : Option (List Nat) :=
  (allSteps x).map (List.map TraceStep.stepNumber)

/-- Number of steps rendered by an aggregation outcome. -/
def totalSteps (x : Except PyErr (List PhaseResult × Nat)) : Nat :=
  ((allSteps x).getD []).length

/-- Final value of the global step counter, when aggregation succeeded. -/
def finalCounter (x : Except PyErr (List PhaseResult × Nat)) : Option Nat :=
  match x with
  | .ok (_, n) => some n
  | .error _ => none

/-- Boolean success test for a modelled Python computation. -/
def isOkB {α : Type} : Except PyErr α → Bool
  | .ok _ => true
  | .error _ => false

/-- Structured agent response, as used by the turn handler. -/
structure AgentResponse where
  output_text : String
  citations : List Citation
  trace : RawTrace
deriving DecidableEq

/-- Conversation session state (`st.session_state`). -/
structure Session where
  session_id : String
  messages : List ChatMessage
  citations : List Citation
  trace : RawTrace
deriving DecidableEq

/-- Session initialization (`init_session_state`, app.py lines 32-36),
with the freshly minted session id passed in. -/
def init_session_state (id : String) : Session :=
  ⟨id, [], [], []⟩

/-- Response post-processing of one successful agent call (app.py lines
192-215): envelope unwrapping, then—when citations are non-empty—the
placeholder rewrite (a `TypeError` if the unwrapped value is not a
string) and the appended location lines. -/
def processResponseText (raw : String) (parsed : Option Json) (citations : List Citation) :
    Except PyErr Json :=
  match unwrapEnvelope raw parsed with
  | .error e => .error e
  | .ok u =>
    if 0 < citations.length then
      match u with
      | .str t => .ok (.str (injectCitations t citations))
      | _ => .error .typeError
    else .ok u

/-- One chat turn (app.py lines 178-220): the user message is appended
first; the agent call and the response processing may fail, in which case
the exception propagates and nothing further is committed; on success the
assistant message is appended and citations and trace are replaced
wholesale.  `agentCall` is the outcome of `invoke_agent`, `parsed` the
parse oracle for the envelope check. -/
def submitTurn (s : Session) (prompt : String) (agentCall : Except PyErr AgentResponse)
    (parsed : Option Json) : Session :=
  let s1 : Session := { s with messages := s.messages ++ [⟨"user", .str prompt⟩] }
  match agentCall with
  | .error _ => s1
  | .ok resp =>
    match processResponseText resp.output_text parsed resp.citations with
    | .error _ => s1
    | .ok content =>
      { s1 with
        messages := s1.messages ++ [⟨"assistant", content⟩],
        citations := resp.citations,
        trace := resp.trace }

/-- Object-shape test (`json.loads` produced a Python dict). -/
def isObj : Json → Bool
  | .objNil => true
  | .objCons _ _ _ => true
  | _ => false

/-- Array-shape test (`json.loads` produced a Python list). -/
def isArr : Json → Bool
  | .arrNil => true
  | .arrCons _ _ => true
  | _ => false

theorem objHasKey_iff_objGet (j : Json) (key : String) :
    objHasKey j key = true ↔ ∃ v, objGet j key = some v := by
  induction j with
  | objCons k v t ihv iht =>
    by_cases hk : k == key
    · simp [objHasKey, objGet, hk]
    · simp [objHasKey, objGet, hk, iht]
  | _ => simp [objHasKey, objGet]

theorem objGet_none_hasKey (j : Json) (key : String) (h : objGet j key = none) :
    objHasKey j key = false := by
  by_cases hk : objHasKey j key = true
  · obtain ⟨v, hv⟩ := (objHasKey_iff_objGet j key).mp hk
    rw [h] at hv
    exact absurd hv (by simp)
  · simpa using hk

theorem objGet_some_hasKey (j : Json) (key : String) (v : Json) (h : objGet j key = some v) :
    objHasKey j key = true :=
  (objHasKey_iff_objGet j key).mpr ⟨v, h⟩

theorem isObj_shapes (j : Json) (h : isObj j = true) :
    j = .objNil ∨ ∃ k v t, j = .objCons k v t := by
  cases j <;> simp_all [isObj]

theorem isArr_shapes (j : Json) (h : isArr j = true) :
    j = .arrNil ∨ ∃ hd tl, j = .arrCons hd tl := by
  cases j <;> simp_all [isArr]

/-- C1 (amended): with an empty citations list the citation-injection
block is skipped entirely, so the text is returned completely unchanged —
in particular the `%[<digits>]%` placeholders are NOT rewritten and no
location lines are appended. -/
theorem c1_empty_citations_text_unchanged (text : String) :
    injectCitations text [] = text := rfl

/-- C1 counterexample: for the text `%[1]%` and an empty citations list
the output still contains the raw placeholder `%[1]%` and does not
contain the rewritten marker, contradicting the claim that step 1 (the
placeholder rewrite) is still performed. -/
theorem c1_counterexample :
    injectCitations "%[1]%" [] = "%[1]%" ∧
    strHasSub (injectCitations "%[1]%" []) "%[1]%" = true ∧
    strHasSub (injectCitations "%[1]%" []) "<sup>[1]</sup>" = false := by
  refine ⟨rfl, ?_, ?_⟩ <;> decide

/-- C3 counterexample: the raw text `5` parses (leniently) to the JSON
number 5, which is not an object; the claim says the original raw text is
then used unchanged, but the code evaluates `"instruction" in 5`, which
raises an uncaught `TypeError` instead. -/
theorem c3_counterexample :
    unwrapEnvelope "5" (some (.num 5)) = .error .typeError ∧
    unwrapEnvelope "5" (some (.num 5)) ≠ .ok (.str "5") :=
  ⟨rfl, fun h => Except.noConfusion h⟩

/-- C3 (amended): the displayable text becomes the value of `result`
exactly when the parsed value is an object containing both an
`instruction` and a `result` field; the original raw text is used
unchanged on parse failure, on objects missing either key, and on
strings/arrays in which Python membership is False for `instruction` or
for `result`; but on numbers, booleans and null — and on strings/arrays
for which both membership tests succeed — an uncaught `TypeError`
propagates instead of falling back to the raw text. -/
theorem c3_unwrap_envelope_cases (raw : String) :
    (unwrapEnvelope raw none = .ok (.str raw))
    ∧ (∀ j r, isObj j = true → objHasKey j "instruction" = true →
        objGet j "result" = some r → unwrapEnvelope raw (some j) = .ok r)
    ∧ (∀ j, isObj j = true →
        (objHasKey j "instruction" = false ∨ objGet j "result" = none) →
        unwrapEnvelope raw (some j) = .ok (.str raw))
    ∧ (∀ n : Int, unwrapEnvelope raw (some (.num n)) = .error .typeError)
    ∧ (∀ b, unwrapEnvelope raw (some (.bool b)) = .error .typeError)
    ∧ (unwrapEnvelope raw (some .null) = .error .typeError)
    ∧ (∀ s, (strHasSub s "instruction" = false ∨ strHasSub s "result" = false) →
        unwrapEnvelope raw (some (.str s)) = .ok (.str raw))
    ∧ (∀ s, strHasSub s "instruction" = true → strHasSub s "result" = true →
        unwrapEnvelope raw (some (.str s)) = .error .typeError)
    ∧ (∀ j, isArr j = true →
        (arrHasStr j "instruction" = false ∨ arrHasStr j "result" = false) →
        unwrapEnvelope raw (some j) = .ok (.str raw))
    ∧ (∀ j, isArr j = true → arrHasStr j "instruction" = true →
        arrHasStr j "result" = true → unwrapEnvelope raw (some j) = .error .typeError) := by
  refine ⟨rfl, ?_, ?_, fun n => rfl, fun b => rfl, rfl, ?_, ?_, ?_, ?_⟩
  · intro j r hobj hinstr hres
    rcases isObj_shapes j hobj with rfl | ⟨k, v, t, rfl⟩
    · simp [objHasKey] at hinstr
    · simp [unwrapEnvelope, pyContains, pyGetItem, hinstr, hres,
        objGet_some_hasKey _ _ _ hres]
  · intro j hobj hmiss
    rcases isObj_shapes j hobj with rfl | ⟨k, v, t, rfl⟩
    · rfl
    · rcases hmiss with hmiss | hmiss
      · simp [unwrapEnvelope, pyContains, hmiss]
      · have hres := objGet_none_hasKey _ _ hmiss
        cases hinstr : objHasKey (Json.objCons k v t) "instruction" <;>
          simp [unwrapEnvelope, pyContains, hinstr, hres]
  · intro s hmiss
    rcases hmiss with hmiss | hmiss
    · simp [unwrapEnvelope, pyContains, hmiss]
    · cases h1 : strHasSub s "instruction" <;>
        simp [unwrapEnvelope, pyContains, h1, hmiss]
  · intro s h1 h2
    simp [unwrapEnvelope, pyContains, pyGetItem, h1, h2]
  · intro j harr hmiss
    rcases isArr_shapes j harr with rfl | ⟨h, t, rfl⟩
    · rfl
    · rcases hmiss with hmiss | hmiss
      · simp [unwrapEnvelope, pyContains, hmiss]
      · cases h1 : arrHasStr (Json.arrCons h t) "instruction" <;>
          simp [unwrapEnvelope, pyContains, h1, hmiss]
  · intro j harr h1 h2
    rcases isArr_shapes j harr with rfl | ⟨h, t, rfl⟩
    · simp [arrHasStr] at h1
    · simp [unwrapEnvelope, pyContains, pyGetItem, h1, h2]

/-- C3 witness: a concrete envelope object is unwrapped to its `result`. -/
theorem c3_witness :
    unwrapEnvelope "env"
      (some (.objCons "instruction" (.str "i") (.objCons "result" (.str "y") .objNil))) =
      .ok (.str "y") :=
  (c3_unwrap_envelope_cases "env").2.1
    (.objCons "instruction" (.str "i") (.objCons "result" (.str "y") .objNil))
    (.str "y") rfl rfl rfl

/-- Flattened reference list of a citations list, in iteration order. -/
def flatRefs (cits : List Citation) : List RetrievedReference :=
  (cits.map Citation.retrievedReferences).flatten

theorem refsLocsFrom_spec (rs : List RetrievedReference) : ∀ n : Nat,
    (refsLocsFrom n rs).1.data =
      ((List.enumFrom n rs).map (fun p => (refLine p.1 p.2).data)).flatten ∧
    (refsLocsFrom n rs).2 = n + rs.length := by
  induction rs with
  | nil => intro n; simp [refsLocsFrom]
  | cons r rs ih =>
    intro n
    refine ⟨?_, ?_⟩
    · show (refLine n r ++ (refsLocsFrom (n + 1) rs).1).data = _
      rw [String.data_append, (ih (n + 1)).1]
      simp [List.enumFrom]
    · show (refsLocsFrom (n + 1) rs).2 = _
      rw [(ih (n + 1)).2, List.length_cons]
      omega

theorem citationLocsFrom_spec (cits : List Citation) : ∀ n : Nat,
    (citationLocsFrom n cits).1.data =
      ((List.enumFrom n (flatRefs cits)).map (fun p => (refLine p.1 p.2).data)).flatten ∧
    (citationLocsFrom n cits).2 = n + (flatRefs cits).length := by
  induction cits with
  | nil => intro n; simp [citationLocsFrom, flatRefs]
  | cons c cs ih =>
    intro n
    have hr := refsLocsFrom_spec c.retrievedReferences n
    have hc := ih (refsLocsFrom n c.retrievedReferences).2
    refine ⟨?_, ?_⟩
    · show ((refsLocsFrom n c.retrievedReferences).1 ++
        (citationLocsFrom (refsLocsFrom n c.retrievedReferences).2 cs).1).data = _
      rw [String.data_append, hr.1, hc.1, hr.2]
      simp [flatRefs, List.enumFrom_append]
    · show (citationLocsFrom (refsLocsFrom n c.retrievedReferences).2 cs).2 = _
      rw [hc.2, hr.2]
      simp [flatRefs]
      omega

/-- C5: the appended location list is the concatenation, over the
flattened reference list (citations in order, each citation's
`retrievedReferences` in order), of one line per individual reference,
numbered strictly sequentially starting at 1 — regardless of how the
references are distributed across citations; and the final counter equals
1 plus the number of references. -/
theorem c5_reference_numbering_sequential (cits : List Citation) :
    (citationLocsFrom 1 cits).1.data =
      ((List.enumFrom 1 (flatRefs cits)).map (fun p => (refLine p.1 p.2).data)).flatten ∧
    (citationLocsFrom 1 cits).2 = 1 + (flatRefs cits).length :=
  citationLocsFrom_spec cits 1

theorem processPhaseKinds_absent (raw : RawTrace) (kinds : List String) (n : Nat)
    (h : ∀ k ∈ kinds, alookup raw k = none) :
    ∀ ht : Bool, processPhaseKinds raw kinds ht n = .ok (ht, [], n) := by
  induction kinds with
  | nil => intro ht; rfl
  | cons k ks ih =>
    intro ht
    have hk : alookup raw k = none := h k (by simp)
    have hrest : ∀ k2 ∈ ks, alookup raw k2 = none := fun k2 hm => h k2 (by simp [hm])
    simp [processPhaseKinds, hk, ih hrest ht]

/-- C7: a phase none of whose associated trace-kinds (per the fixed
phase table) is present in the raw trace mapping contributes no steps and
leaves the global step counter unchanged, and its rendered result carries
`none` for the step list — the "no trace" / `None` report — rather than
an empty step list. -/
theorem c7_phase_without_trace_reports_none (raw : RawTrace) (label : String)
    (kinds : List String) (rest : List (String × List String)) (n : Nat)
    (h : ∀ k ∈ kinds, alookup raw k = none) :
    processPhaseKinds raw kinds false n = .ok (false, [], n) ∧
    aggregatePhases raw ((label, kinds) :: rest) n =
      (aggregatePhases raw rest n).map (fun p => (⟨label, none⟩ :: p.1, p.2)) := by
  have h1 := processPhaseKinds_absent raw kinds n h false
  refine ⟨h1, ?_⟩
  rw [aggregatePhases, h1]
  cases hrec : aggregatePhases raw rest n with
  | ok p => simp [hrec, Except.map]
  | error e => simp [hrec, Except.map]

/-- C7 witness: with only `orchestrationTrace` present, the
Pre-Processing phase reports `none` and passes the counter through. -/
def c7raw : RawTrace := [("orchestrationTrace", [])]

theorem c7_witness :
    aggregatePhases c7raw [("Pre-Processing", ["preGuardrailTrace", "preProcessingTrace"])] 1 =
      .ok ([⟨"Pre-Processing", none⟩], 1) :=
  ((c7_phase_without_trace_reports_none c7raw "Pre-Processing"
    ["preGuardrailTrace", "preProcessingTrace"] [] 1 (by decide)).2).trans rfl

/-- C9: a turn appends the user message to the history up front; when the
agent call then fails, exactly that one message has been added for the
turn, the prior history is preserved as a prefix, and citations, trace
and session id are left untouched (the assistant append and the
wholesale citation/trace replacement happen only on success). -/
theorem c9_failed_turn_commits_only_user_message (s : Session) (prompt : String)
    (e : PyErr) (parsed : Option Json) :
    (submitTurn s prompt (.error e) parsed).messages = s.messages ++ [⟨"user", .str prompt⟩] ∧
    (submitTurn s prompt (.error e) parsed).messages.length = s.messages.length + 1 ∧
    (submitTurn s prompt (.error e) parsed).citations = s.citations ∧
    (submitTurn s prompt (.error e) parsed).trace = s.trace ∧
    (submitTurn s prompt (.error e) parsed).session_id = s.session_id :=
  ⟨rfl, by simp [submitTurn], rfl, rfl, rfl⟩

theorem range'_chain (s a b : Nat) :
    List.range' s a ++ List.range' (s + a) b = List.range' s (a + b) := by
  rw [Nat.add_comm a b]
  have h := List.range'_append s a b 1
  rw [Nat.one_mul] at h
  exact h

theorem numberGroups_spec (gs : Groups) : ∀ n : Nat,
    (numberGroups n gs).1.map TraceStep.stepNumber = List.range' n gs.length ∧
    (numberGroups n gs).2 = n + gs.length := by
  induction gs with
  | nil => intro n; simp [numberGroups]
  | cons g t ih =>
    intro n
    obtain ⟨tid, evs⟩ := g
    constructor
    · show TraceStep.stepNumber ⟨n, tid, evs⟩ ::
        (numberGroups (n + 1) t).1.map TraceStep.stepNumber = _
      rw [(ih (n + 1)).1, List.length_cons]
      rfl
    · show (numberGroups (n + 1) t).2 = _
      rw [(ih (n + 1)).2, List.length_cons]
      omega

theorem numberGroups_len (gs : Groups) (n : Nat) :
    (numberGroups n gs).1.length = gs.length := by
  have := congrArg List.length (numberGroups_spec gs n).1
  simpa using this

theorem processPhaseKinds_spec (raw : RawTrace) (kinds : List String) :
    ∀ ht n ht2 steps n2, processPhaseKinds raw kinds ht n = .ok (ht2, steps, n2) →
      steps.map TraceStep.stepNumber = List.range' n steps.length ∧
      n2 = n + steps.length ∧
      (ht2 = false → steps = [] ∧ n2 = n) ∧
      (ht = true → ht2 = true) := by
  induction kinds with
  | nil =>
    intro ht n ht2 steps n2 h
    simp only [processPhaseKinds] at h
    cases h
    simp
  | cons k ks ih =>
    intro ht n ht2 steps n2 h
    cases hk : alookup raw k with
    | none =>
      simp only [processPhaseKinds, hk] at h
      exact ih ht n ht2 steps n2 h
    | some events =>
      cases hg : groupKindEvents k events with
      | error e => simp [processPhaseKinds, hk, hg] at h
      | ok gs =>
        cases hr : processPhaseKinds raw ks true (numberGroups n gs).2 with
        | error e => simp [processPhaseKinds, hk, hg, hr] at h
        | ok trip =>
          obtain ⟨ht3, more, n3⟩ := trip
          simp only [processPhaseKinds, hk, hg, hr, Except.ok.injEq, Prod.mk.injEq] at h
          obtain ⟨hht, hsteps, hn2⟩ := h
          subst hht hsteps hn2
          have hng := numberGroups_spec gs n
          have hih := ih true (numberGroups n gs).2 ht3 more n3 hr
          have htrue : ht3 = true := hih.2.2.2 rfl
          refine ⟨?_, ?_, ?_, fun _ => htrue⟩
          · rw [List.map_append, hng.1, hih.1, hng.2, List.length_append,
              numberGroups_len]
            exact range'_chain n gs.length more.length
          · rw [hih.2.1, hng.2, List.length_append, numberGroups_len]
            omega
          · intro hf
            rw [htrue] at hf
            cases hf

theorem aggregatePhases_spec (raw : RawTrace) (phases : List (String × List String)) :
    ∀ n prs n2, aggregatePhases raw phases n = .ok (prs, n2) →
      (prs.map phaseSteps).flatten.map TraceStep.stepNumber =
        List.range' n (prs.map phaseSteps).flatten.length ∧
      n2 = n + (prs.map phaseSteps).flatten.length := by
  induction phases with
  | nil =>
    intro n prs n2 h
    simp only [aggregatePhases, Except.ok.injEq, Prod.mk.injEq] at h
    obtain ⟨hprs, hn⟩ := h
    subst hprs hn
    simp
  | cons ph rest ih =>
    obtain ⟨label, kinds⟩ := ph
    intro n prs n2 h
    cases hp : processPhaseKinds raw kinds false n with
    | error e => simp [aggregatePhases, hp] at h
    | ok trip =>
      obtain ⟨ht, steps, n1⟩ := trip
      cases hr : aggregatePhases raw rest n1 with
      | error e => simp [aggregatePhases, hp, hr] at h
      | ok pr2 =>
        obtain ⟨prs2, n3⟩ := pr2
        simp only [aggregatePhases, hp, hr, Except.ok.injEq, Prod.mk.injEq] at h
        obtain ⟨hprs, hn⟩ := h
        subst hprs hn
        have hps := processPhaseKinds_spec raw kinds false n ht steps n1 hp
        have hihr := ih n1 prs2 n3 hr
        have hsteps : phaseSteps ⟨label, if ht then some steps else none⟩ = steps := by
          cases ht
          · simp [phaseSteps, (hps.2.2.1 rfl).1]
          · simp [phaseSteps]
        constructor
        · rw [List.map_cons, List.flatten_cons, hsteps, List.map_append, hps.1,
            List.length_append, hihr.1, hps.2.1]
          exact range'_chain n steps.length (prs2.map phaseSteps).flatten.length
        · rw [List.map_cons, List.flatten_cons, hsteps, List.length_append,
            hihr.2, hps.2.1]
          omega

/-- C2: whenever trace aggregation succeeds, the step numbers across all
phases in display order form the strictly increasing sequence 1, 2, 3,
..., assigned globally and never reset per phase, and the final counter
is 1 plus the number of steps; in particular, when Pre-Processing
contributes 2 steps and Orchestration 3 steps, Orchestration's steps are
numbered 3, 4, 5. -/
theorem c2_global_step_numbering (raw : RawTrace)
    (h : isOkB (aggregateTrace raw) = true) :
    stepNumbersOf (aggregateTrace raw) =
      some (List.range' 1 (totalSteps (aggregateTrace raw))) ∧
    finalCounter (aggregateTrace raw) =
      some (1 + totalSteps (aggregateTrace raw)) := by
  cases hagg : aggregateTrace raw with
  | error e => rw [hagg] at h; cases h
  | ok pr =>
    obtain ⟨prs, n⟩ := pr
    have hspec := aggregatePhases_spec raw trace_types_map 1 prs n hagg
    constructor
    · show some ((prs.map phaseSteps).flatten.map TraceStep.stepNumber) = _
      rw [hspec.1]
      rfl
    · show some n = _
      rw [hspec.2]
      rfl

/-- C2 witness raw trace: Pre-Processing contributes two steps (two
events with distinct trace ids under a registered kind) and Orchestration
three. -/
def c2raw : RawTrace :=
  [("preProcessingTrace",
    [[("modelInvocationInput", .objCons "traceId" (.str "p1") .objNil)],
     [("modelInvocationOutput", .objCons "traceId" (.str "p2") .objNil)]]),
   ("orchestrationTrace",
    [[("invocationInput", .objCons "traceId" (.str "o1") .objNil)],
     [("rationale", .objCons "traceId" (.str "o2") .objNil)],
     [("observation", .objCons "traceId" (.str "o3") .objNil)]])]

theorem c2_witness :
    stepNumbersOf (aggregateTrace c2raw) = some [1, 2, 3, 4, 5] ∧
    finalCounter (aggregateTrace c2raw) = some 6 := by
  have h := c2_global_step_numbering c2raw rfl
  exact ⟨h.1.trans rfl, h.2.trans rfl⟩

theorem firstInfoField_skip (pre : List String) (f : String) (post : List String)
    (ev : Event) (sub : Json) (hpre : ∀ g ∈ pre, alookup ev g = none)
    (hf : alookup ev f = some sub) :
    firstInfoField (pre ++ f :: post) ev = some (f, sub) := by
  induction pre with
  | nil => simp [firstInfoField, hf]
  | cons g gs ih =>
    have hg : alookup ev g = none := hpre g (by simp)
    simp only [List.cons_append, firstInfoField, hg]
    exact ih fun x hx => hpre x (by simp [hx])

theorem alookup_insertAppend (gs : Groups) (k : Json) (ev : Event) :
    alookup (insertAppend gs k ev) k = some ((alookup gs k).getD [] ++ [ev]) := by
  induction gs with
  | nil => simp [insertAppend, alookup]
  | cons g t ih =>
    obtain ⟨k2, evs⟩ := g
    by_cases hk : k2 = k
    · subst hk
      simp [insertAppend, alookup]
    · simp [insertAppend, alookup, hk, ih]

/-- C6: for a trace-kind with a registered ordered info-field list, an
event whose first present field (in registered order, all earlier fields
absent) carries a sub-object with a `traceId` is grouped — as a whole —
under that id, the scan stopping at that field no matter which later
fields are also present; the event is appended at the end of the group
with that trace id. -/
theorem c6_first_present_field_grouping (pre post : List String) (f : String)
    (sub tid : Json) (ev : Event) (gs : Groups)
    (hpre : ∀ g ∈ pre, alookup ev g = none)
    (hf : alookup ev f = some sub)
    (htid : pyGetItem sub "traceId" = .ok tid) :
    processRegEvent (pre ++ f :: post) gs ev = .ok (insertAppend gs tid ev) ∧
    alookup (insertAppend gs tid ev) tid = some ((alookup gs tid).getD [] ++ [ev]) := by
  refine ⟨?_, alookup_insertAppend gs tid ev⟩
  simp [processRegEvent, firstInfoField_skip pre f post ev sub hpre hf, htid]

/-- C6 witness event: `modelInvocationOutput` is the first registered
field present; `observation`, later in the registered order, is also
present and carries a different trace id, but is not consulted. -/
def c6ev : Event :=
  [("modelInvocationOutput", .objCons "traceId" (.str "A") .objNil),
   ("observation", .objCons "traceId" (.str "B") .objNil)]

theorem c6_witness :
    processRegEvent
      ["invocationInput", "modelInvocationInput", "modelInvocationOutput",
       "observation", "rationale"] [] c6ev =
      .ok [(Json.str "A", [c6ev])] :=
  ((c6_first_present_field_grouping ["invocationInput", "modelInvocationInput"]
    ["observation", "rationale"] "modelInvocationOutput"
    (.objCons "traceId" (.str "A") .objNil) (.str "A") c6ev []
    (by decide) rfl rfl).1).trans rfl

/-- C4 counterexample events: two `preGuardrailTrace` events sharing the
trace id `t`. -/
def c4ev1 : Event := [("traceId", .str "t"), ("a", .num 1)]

/-- Second C4 counterexample event, same trace id as the first. -/
def c4ev2 : Event := [("traceId", .str "t"), ("b", .num 2)]

/-- C4 counterexample: `preGuardrailTrace` has no registered info-field
list, and grouping two events that share a trace id keeps only the
(wrapped) second event — the plain dict assignment overwrites the
previous entry, so the resulting step does not contain all events with
that id. -/
theorem c4_counterexample :
    alookup trace_info_types_map "preGuardrailTrace" = none ∧
    groupKindEvents "preGuardrailTrace" [c4ev1, c4ev2] =
      .ok [(Json.str "t", [[("preGuardrailTrace", objOf c4ev2)]])] :=
  ⟨rfl, rfl⟩

/-- Last event of the list whose top-level `traceId` equals the given id. -/
def lastWithTid (events : List Event) (tid : Json) : Option Event :=
  (events.filter fun ev => decide (alookup ev "traceId" = some tid)).getLast?

/-- Keys of a step-group dict, in insertion order. -/
def keysOf (gs : Groups) : List Json := gs.map Prod.fst

theorem mem_keysOf_insertReplace (gs : Groups) (k : Json) (v : List Event) (x : Json)
    (hx : x ∈ keysOf (insertReplace gs k v)) : x ∈ keysOf gs ∨ x = k := by
  induction gs with
  | nil =>
    simp [insertReplace, keysOf] at hx
    exact Or.inr hx
  | cons g t ih =>
    obtain ⟨k2, evs⟩ := g
    by_cases hk : k2 = k
    · subst hk
      simp [insertReplace, keysOf] at hx ⊢
      exact Or.inl hx
    · simp only [insertReplace, hk, if_false, keysOf, List.map_cons, List.mem_cons] at hx ⊢
      rcases hx with rfl | hx
      · exact Or.inl (Or.inl rfl)
      · rcases ih hx with h | h
        · exact Or.inl (Or.inr h)
        · exact Or.inr h

theorem keysOf_insertReplace_nodup (gs : Groups) (k : Json) (v : List Event)
    (h : (keysOf gs).Nodup) : (keysOf (insertReplace gs k v)).Nodup := by
  induction gs with
  | nil => simp [insertReplace, keysOf]
  | cons g t ih =>
    obtain ⟨k2, evs⟩ := g
    simp only [keysOf, List.map_cons, List.nodup_cons] at h
    by_cases hk : k2 = k
    · subst hk
      simpa [insertReplace, keysOf, List.nodup_cons] using h
    · simp only [insertReplace, hk, if_false, keysOf, List.map_cons, List.nodup_cons]
      refine ⟨fun hmem => ?_, ih h.2⟩
      rcases mem_keysOf_insertReplace t k v k2 hmem with hm | hm
      · exact h.1 hm
      · exact hk hm

theorem mem_insertReplace (gs : Groups) (k : Json) (v : List Event) (tid : Json)
    (evs : List Event) (hnd : (keysOf gs).Nodup)
    (h : (tid, evs) ∈ insertReplace gs k v) :
    (tid = k ∧ evs = v) ∨ (tid ≠ k ∧ (tid, evs) ∈ gs) := by
  induction gs with
  | nil =>
    simp [insertReplace] at h
    exact Or.inl h
  | cons g t ih =>
    obtain ⟨k2, evs2⟩ := g
    simp only [keysOf, List.map_cons, List.nodup_cons] at hnd
    by_cases hk : k2 = k
    · subst hk
      simp only [insertReplace, if_true, List.mem_cons] at h
      rcases h with h | h
      · rw [Prod.mk.injEq] at h
        obtain ⟨rfl, rfl⟩ := h
        exact Or.inl ⟨rfl, rfl⟩
      · refine Or.inr ⟨?_, List.mem_cons_of_mem _ h⟩
        intro heq
        subst heq
        exact hnd.1 (List.mem_map_of_mem Prod.fst h)
    · simp only [insertReplace, hk, if_false, List.mem_cons] at h
      rcases h with h | h
      · rw [Prod.mk.injEq] at h
        obtain ⟨rfl, rfl⟩ := h
        exact Or.inr ⟨hk, List.mem_cons_self _ _⟩
      · rcases ih hnd.2 h with hcase | hcase
        · exact Or.inl hcase
        · exact Or.inr ⟨hcase.1, List.mem_cons_of_mem _ hcase.2⟩

theorem groupUnreg_spec (kind : String) (events : List Event) :
    ∀ gs, events.foldlM (processUnregEvent kind) [] = .ok gs →
      (keysOf gs).Nodup ∧
      ∀ tid evs, (tid, evs) ∈ gs →
        ∃ ev, lastWithTid events tid = some ev ∧ evs = [[(kind, objOf ev)]] := by
  induction events using List.reverseRecOn with
  | nil =>
    intro gs h
    simp only [List.foldlM, pure, Except.pure, Except.ok.injEq] at h
    subst h
    exact ⟨List.nodup_nil, fun tid evs hmem => absurd hmem (List.not_mem_nil _)⟩
  | append_singleton l e ih =>
    intro gs h
    rw [List.foldlM_append] at h
    cases h1 : l.foldlM (processUnregEvent kind) [] with
    | error er =>
      rw [h1] at h
      cases h
    | ok gs1 =>
      rw [h1] at h
      obtain ⟨hnd1, hspec1⟩ := ih gs1 h1
      cases he : alookup e "traceId" with
      | none =>
        have : processUnregEvent kind gs1 e = .error (.keyError "traceId") := by
          simp [processUnregEvent, he]
        simp only [List.foldlM, bind, Except.bind, this] at h
        cases h
      | some tidE =>
        have hstep : processUnregEvent kind gs1 e =
            .ok (insertReplace gs1 tidE [[(kind, objOf e)]]) := by
          simp [processUnregEvent, he]
        simp only [List.foldlM, bind, Except.bind, hstep, pure, Except.pure,
          Except.ok.injEq] at h
        subst h
        refine ⟨keysOf_insertReplace_nodup gs1 tidE _ hnd1, ?_⟩
        intro tid evs hmem
        rcases mem_insertReplace gs1 tidE _ tid evs hnd1 hmem with ⟨rfl, rfl⟩ | ⟨hne, hmem1⟩
        · refine ⟨e, ?_, rfl⟩
          rw [lastWithTid, List.filter_append]
          simp [he]
        · obtain ⟨ev, hlast, hevs⟩ := hspec1 tid evs hmem1
          refine ⟨ev, ?_, hevs⟩
          rw [lastWithTid, List.filter_append]
          have hdrop : (List.filter (fun ev => decide (alookup ev "traceId" = some tid)) [e]) = [] := by
            simp [he]
            intro hcontra
            exact hne (by rw [hcontra])
          rw [hdrop, List.append_nil]
          exact hlast

/-- C4 (amended): for a trace-kind with no registered info-field list,
each event is grouped under its top-level `traceId` wrapped so the
trace-kind label is retained, but when several events carry the same
traceId the resulting step does NOT contain all of them: it contains
exactly the wrapped form of the last such event, each dict assignment
having replaced the previous one. -/
theorem c4_unregistered_kind_keeps_last_event (kind : String) (events : List Event)
    (gs : Groups) (tid : Json) (evs : List Event)
    (hk : alookup trace_info_types_map kind = none)
    (hok : groupKindEvents kind events = .ok gs)
    (hmem : (tid, evs) ∈ gs) :
    (lastWithTid events tid).isSome = true ∧
    evs = [[(kind, objOf ((lastWithTid events tid).getD []))]] := by
  rw [groupKindEvents, hk] at hok
  obtain ⟨_, hspec⟩ := groupUnreg_spec kind events gs hok
  obtain ⟨ev, hlast, hevs⟩ := hspec tid evs hmem
  rw [hlast]
  exact ⟨rfl, by simpa using hevs⟩

theorem c4_witness :
    (lastWithTid [c4ev1, c4ev2] (Json.str "t")).isSome = true ∧
    [[("preGuardrailTrace", objOf c4ev2)]] =
      [[("preGuardrailTrace", objOf ((lastWithTid [c4ev1, c4ev2] (Json.str "t")).getD []))]] :=
  c4_unregistered_kind_keeps_last_event "preGuardrailTrace" [c4ev1, c4ev2]
    [(Json.str "t", [[("preGuardrailTrace", objOf c4ev2)]])] (Json.str "t")
    [[("preGuardrailTrace", objOf c4ev2)]] rfl rfl (by simp)

theorem pyGetItem_missing (sub : Json) (hobj : isObj sub = true)
    (hno : objGet sub "traceId" = none) :
    pyGetItem sub "traceId" = .error (.keyError "traceId") := by
  rcases isObj_shapes sub hobj with rfl | ⟨k, v, t, rfl⟩
  · rfl
  · simp [pyGetItem, hno]

theorem processRegEvent_missing_tid (fields : List String) (ev : Event) (f : String)
    (sub : Json) (hf : firstInfoField fields ev = some (f, sub))
    (hobj : isObj sub = true) (hno : objGet sub "traceId" = none) :
    ∀ gs, processRegEvent fields gs ev = .error (.keyError "traceId") := by
  intro gs
  simp [processRegEvent, hf, pyGetItem_missing sub hobj hno]

theorem foldlM_mem_error {α β : Type} (g : β → α → Except PyErr β) (x : α) (l : List α)
    (hx : x ∈ l) (hbad : ∀ acc, isOkB (g acc x) = false) :
    ∀ init, isOkB (l.foldlM g init) = false := by
  induction l with
  | nil => cases hx
  | cons a t ih =>
    intro init
    cases ha : g init a with
    | error e =>
      show isOkB (g init a >>= fun b => t.foldlM g b) = false
      rw [ha]
      rfl
    | ok b =>
      rcases List.mem_cons.mp hx with rfl | hxt
      · have hc := hbad init
        rw [ha] at hc
        cases hc
      · show isOkB (g init a >>= fun b2 => t.foldlM g b2) = false
        rw [ha]
        exact ih hxt b

theorem groupKind_bad (kind : String) (fields : List String) (events : List Event)
    (ev : Event) (f : String) (sub : Json)
    (hreg : alookup trace_info_types_map kind = some fields)
    (hev : ev ∈ events) (hf : firstInfoField fields ev = some (f, sub))
    (hobj : isObj sub = true) (hno : objGet sub "traceId" = none) :
    isOkB (groupKindEvents kind events) = false := by
  have hbad : ∀ acc, isOkB (processRegEvent fields acc ev) = false := by
    intro acc
    rw [processRegEvent_missing_tid fields ev f sub hf hobj hno acc]
    rfl
  have hfold := foldlM_mem_error (processRegEvent fields) ev events hev hbad []
  rw [groupKindEvents, hreg]
  exact hfold

theorem processPhaseKinds_error (raw : RawTrace) (kinds : List String) (k : String)
    (events : List Event) (hk : k ∈ kinds) (hraw : alookup raw k = some events)
    (hbad : isOkB (groupKindEvents k events) = false) :
    ∀ ht n, isOkB (processPhaseKinds raw kinds ht n) = false := by
  induction kinds with
  | nil => cases hk
  | cons a rest ih =>
    intro ht n
    rcases List.mem_cons.mp hk with rfl | hmem
    · cases hga : groupKindEvents k events with
      | ok gs =>
        rw [hga] at hbad
        cases hbad
      | error e => simp [processPhaseKinds, hraw, hga, isOkB]
    · cases ha : alookup raw a with
      | none =>
        simp only [processPhaseKinds, ha]
        exact ih hmem ht n
      | some evs2 =>
        cases hg2 : groupKindEvents a evs2 with
        | error e => simp [processPhaseKinds, ha, hg2, isOkB]
        | ok gs2 =>
          have hrec := ih hmem true (numberGroups n gs2).2
          cases hr : processPhaseKinds raw rest true (numberGroups n gs2).2 with
          | error e => simp [processPhaseKinds, ha, hg2, hr, isOkB]
          | ok trip =>
            rw [hr] at hrec
            cases hrec

theorem aggregatePhases_error (raw : RawTrace) (phases : List (String × List String))
    (label : String) (kinds : List String) (hmem : (label, kinds) ∈ phases)
    (hbad : ∀ ht n, isOkB (processPhaseKinds raw kinds ht n) = false) :
    ∀ n, isOkB (aggregatePhases raw phases n) = false := by
  induction phases with
  | nil => cases hmem
  | cons ph rest ih =>
    intro n
    obtain ⟨l2, ks2⟩ := ph
    rcases List.mem_cons.mp hmem with heq | hmem2
    · rw [Prod.mk.injEq] at heq
      obtain ⟨rfl, rfl⟩ := heq
      cases hp : processPhaseKinds raw kinds false n with
      | ok trip =>
        have hc := hbad false n
        rw [hp] at hc
        cases hc
      | error e => simp [aggregatePhases, hp, isOkB]
    · cases hp : processPhaseKinds raw ks2 false n with
      | error e => simp [aggregatePhases, hp, isOkB]
      | ok trip =>
        obtain ⟨ht, steps, n1⟩ := trip
        have hrec := ih hmem2 n1
        cases hr : aggregatePhases raw rest n1 with
        | error e => simp [aggregatePhases, hp, hr, isOkB]
        | ok pr2 =>
          rw [hr] at hrec
          cases hrec

/-- C10: for a trace event of a registered trace-kind whose first
present info field carries a sub-object lacking a `traceId` key, the
per-event lookup raises `KeyError("traceId")` no matter the accumulated
groups — the event is not dropped and there is no graceful per-event
degradation — and the whole trace aggregation for the turn aborts with
an error instead of producing a result. -/
theorem c10_missing_traceid_aborts (raw : RawTrace) (kind : String) (fields : List String)
    (events : List Event) (ev : Event) (f : String) (sub : Json)
    (hreg : alookup trace_info_types_map kind = some fields)
    (hraw : alookup raw kind = some events)
    (hev : ev ∈ events)
    (hf : firstInfoField fields ev = some (f, sub))
    (hobj : isObj sub = true)
    (hno : objGet sub "traceId" = none) :
    (∀ gs, processRegEvent fields gs ev = .error (.keyError "traceId")) ∧
    isOkB (aggregateTrace raw) = false := by
  refine ⟨processRegEvent_missing_tid fields ev f sub hf hobj hno, ?_⟩
  have hbadk := groupKind_bad kind fields events ev f sub hreg hev hf hobj hno
  have hkind3 : kind = "preProcessingTrace" ∨ kind = "orchestrationTrace" ∨
      kind = "postProcessingTrace" := by
    by_cases h1 : ("preProcessingTrace" : String) = kind
    · exact Or.inl h1.symm
    · by_cases h2 : ("orchestrationTrace" : String) = kind
      · exact Or.inr (Or.inl h2.symm)
      · by_cases h3 : ("postProcessingTrace" : String) = kind
        · exact Or.inr (Or.inr h3.symm)
        · simp [trace_info_types_map, alookup, h1, h2, h3] at hreg
  have hppk : ∀ kinds, kind ∈ kinds →
      ∀ ht n, isOkB (processPhaseKinds raw kinds ht n) = false :=
    fun kinds hkin => processPhaseKinds_error raw kinds kind events hkin hraw hbadk
  rcases hkind3 with rfl | rfl | rfl
  · exact aggregatePhases_error raw trace_types_map "Pre-Processing"
      ["preGuardrailTrace", "preProcessingTrace"] (by simp [trace_types_map])
      (hppk _ (by simp)) 1
  · exact aggregatePhases_error raw trace_types_map "Orchestration"
      ["orchestrationTrace"] (by simp [trace_types_map]) (hppk _ (by simp)) 1
  · exact aggregatePhases_error raw trace_types_map "Post-Processing"
      ["postProcessingTrace", "postGuardrailTrace"] (by simp [trace_types_map])
      (hppk _ (by simp)) 1

/-- C10 witness raw trace: one orchestration event whose only registered
info field (`rationale`) lacks a `traceId`. -/
def c10raw : RawTrace :=
  [("orchestrationTrace", [[("rationale", .objCons "text" (.str "why") .objNil)]])]

theorem c10_witness : isOkB (aggregateTrace c10raw) = false :=
  (c10_missing_traceid_aborts c10raw "orchestrationTrace"
    ["invocationInput", "modelInvocationInput", "modelInvocationOutput",
     "observation", "rationale"]
    [[("rationale", .objCons "text" (.str "why") .objNil)]]
    [("rationale", .objCons "text" (.str "why") .objNil)]
    "rationale" (.objCons "text" (.str "why") .objNil)
    rfl rfl (by simp) rfl rfl rfl).2

/-- The literal placeholder occurrence the C8 property is about. -/
def occ3 : List Char := ['%', '[', '3', ']', '%']

/-- The rewritten marker `[3]`. -/
def mk3 : List Char := ['[', '3', ']']

theorem infx_of_left {l a : List Char} (b : List Char) (h : l <:+: a) : l <:+: a ++ b := by
  obtain ⟨s, t, hst⟩ := h
  exact ⟨s, t ++ b, by rw [← hst]; simp⟩

theorem infx_of_right (a : List Char) {l b : List Char} (h : l <:+: b) : l <:+: a ++ b := by
  obtain ⟨s, t, hst⟩ := h
  exact ⟨a ++ s, t, by rw [← hst]; simp⟩

theorem infx_cons (c : Char) {l t : List Char} (h : l <:+: t) : l <:+: c :: t :=
  infx_of_right [c] h

theorem infx_of_pfx {l m : List Char} (h : l <+: m) : l <:+: m := by
  obtain ⟨t, ht⟩ := h
  exact ⟨[], t, by rw [← ht]; rfl⟩

theorem mem_of_infx {l m : List Char} (h : l <:+: m) {c : Char} (hc : c ∈ l) : c ∈ m := by
  obtain ⟨s, t, hst⟩ := h
  rw [← hst]
  simp [hc]

theorem mem_of_sfx {l m : List Char} (h : l <:+ m) {c : Char} (hc : c ∈ l) : c ∈ m := by
  obtain ⟨s, hst⟩ := h
  rw [← hst]
  simp [hc]

theorem prefix_append_split {p a b : List Char} (h : p <+: a ++ b) :
    p <+: a ∨ ∃ p2, p = a ++ p2 ∧ p2 ≠ [] ∧ p2 <+: b := by
  induction a generalizing p with
  | nil =>
    cases p with
    | nil => exact Or.inl List.nil_prefix
    | cons y t => exact Or.inr ⟨y :: t, by simp, by simp, by simpa using h⟩
  | cons x a2 ih =>
    cases p with
    | nil => exact Or.inl List.nil_prefix
    | cons y t =>
      rw [List.cons_append, List.cons_prefix_cons] at h
      obtain ⟨rfl, ht⟩ := h
      rcases ih ht with hl | ⟨p2, rfl, hne, hp2⟩
      · exact Or.inl (List.cons_prefix_cons.mpr ⟨rfl, hl⟩)
      · exact Or.inr ⟨p2, by simp, hne, hp2⟩

theorem infix_append_split {p a b : List Char} (h : p <:+: a ++ b) :
    p <:+: a ∨ p <:+: b ∨
    ∃ p1 p2, p = p1 ++ p2 ∧ p1 ≠ [] ∧ p2 ≠ [] ∧ p1 <:+ a ∧ p2 <+: b := by
  induction a with
  | nil => exact Or.inr (Or.inl (by simpa using h))
  | cons x a2 ih =>
    rw [List.cons_append] at h
    rcases List.infix_cons_iff.mp h with hp | hp
    · rw [← List.cons_append] at hp
      rcases prefix_append_split hp with hl | ⟨p2, rfl, hne2, hp2⟩
      · exact Or.inl (infx_of_pfx hl)
      · exact Or.inr (Or.inr ⟨x :: a2, p2, rfl, by simp, hne2, List.suffix_refl _, hp2⟩)
    · rcases ih hp with hl | hm | ⟨p1, p2, rfl, hne1, hne2, hs, hpre⟩
      · exact Or.inl (infx_cons x hl)
      · exact Or.inr (Or.inl hm)
      · exact Or.inr (Or.inr ⟨p1, p2, rfl, hne1, hne2, hs.trans (List.suffix_cons x a2), hpre⟩)

theorem straddle_facts {p1 p2 : List Char} (h : occ3 = p1 ++ p2) (h1 : p1 ≠ [])
    (h2 : p2 ≠ []) :
    (∃ t, p1 = '%' :: t) ∧ ∀ c t2, p2 = c :: t2 → c ∈ (['[', '3', ']', '%'] : List Char) := by
  cases p1 with
  | nil => exact absurd rfl h1
  | cons a t =>
    rw [show occ3 = '%' :: ['[', '3', ']', '%'] from rfl, List.cons_append] at h
    injection h with ha htail
    subst ha
    refine ⟨⟨t, rfl⟩, ?_⟩
    intro c t2 hp2
    subst hp2
    have hsfx : (c :: t2) <:+ (['[', '3', ']', '%'] : List Char) := ⟨t, htail.symm⟩
    exact mem_of_sfx hsfx (by simp)

theorem matchPlaceholder_some {l ds rest : List Char}
    (h : matchPlaceholder l = some (ds, rest)) :
    ds ≠ [] ∧ (∀ c ∈ ds, c.isDigit = true) ∧
    l = '%' :: '[' :: (ds ++ ']' :: '%' :: rest) := by
  unfold matchPlaceholder at h
  split at h
  · rename_i r
    split at h
    · cases h
    · rename_i d ds2 hetake hedrop
      injection h with hpr
      injection hpr with hds hrest
      subst hds hrest
      refine ⟨by simp, ?_, ?_⟩
      · intro c hc
        rw [← hetake] at hc
        exact List.mem_takeWhile_imp hc
      · have hr : r.takeWhile Char.isDigit ++ r.dropWhile Char.isDigit = r :=
          List.takeWhile_append_dropWhile _ _
        rw [hetake, hedrop] at hr
        rw [← hr]
    · cases h
  · cases h

theorem subAux_nil (f : Nat) : subAux f [] = [] := by
  cases f <;> rfl

theorem subAux_cons_match (f : Nat) (l ds rest : List Char)
    (h : matchPlaceholder l = some (ds, rest)) :
    subAux (f + 1) l = replMarker ds ++ subAux f rest := by
  cases l with
  | nil => cases h
  | cons c cs => simp [subAux, h]

theorem subAux_cons_nomatch (f : Nat) (c : Char) (cs : List Char)
    (h : matchPlaceholder (c :: cs) = none) :
    subAux (f + 1) (c :: cs) = c :: subAux f cs := by
  simp [subAux, h]

theorem pct_digit_suffix (ds : List Char) (hds : ∀ c ∈ ds, c.isDigit = true) :
    ∀ w : List Char, w <:+ ds ++ [']', '%'] → w.head? = some '%' → w = ['%'] := by
  induction ds with
  | nil =>
    intro w hw hh
    rcases List.suffix_cons_iff.mp (by simpa using hw) with rfl | hw2
    · simp at hh
    · rcases List.suffix_cons_iff.mp hw2 with rfl | hw3
      · rfl
      · rw [List.suffix_nil.mp hw3] at hh
        cases hh
  | cons d ds2 ih =>
    intro w hw hh
    rcases List.suffix_cons_iff.mp (by simpa using hw) with rfl | hw2
    · rw [List.head?_cons, Option.some.injEq] at hh
      have hd := hds d (by simp)
      rw [hh] at hd
      exact absurd hd (by decide)
    · exact ih (fun c hc => hds c (by simp [hc])) w hw2 hh

theorem pct_suffix (ds : List Char) (hds : ∀ c ∈ ds, c.isDigit = true)
    (w : List Char) (hw : w <:+ '%' :: '[' :: (ds ++ [']', '%']))
    (hh : w.head? = some '%') :
    w = ['%'] ∨ w = '%' :: '[' :: (ds ++ [']', '%']) := by
  rcases List.suffix_cons_iff.mp hw with rfl | hw2
  · exact Or.inr rfl
  · rcases List.suffix_cons_iff.mp hw2 with rfl | hw3
    · rw [List.head?_cons, Option.some.injEq] at hh
      cases hh
    · exact Or.inl (pct_digit_suffix ds hds w hw3 hh)

theorem pct_not_mem_replMarker (ds : List Char) (hds : ∀ c ∈ ds, c.isDigit = true) :
    '%' ∉ replMarker ds := by
  intro hmem
  rw [replMarker, List.mem_append, List.mem_append] at hmem
  rcases hmem with (hmem | hmem) | hmem
  · exact absurd hmem (by decide)
  · exact absurd (hds _ hmem) (by decide)
  · exact absurd hmem (by decide)

theorem subAux_prefix_peel (f : Nat) (xs : List Char) (a : Char) (t : List Char)
    (hlen : xs.length ≤ f) (ha : a ≠ '<')
    (h : (a :: t) <+: subAux f xs) :
    ∃ g xs2, f = g + 1 ∧ xs = a :: xs2 ∧ xs2.length ≤ g ∧ t <+: subAux g xs2 := by
  cases f with
  | zero =>
    have : xs = [] := List.eq_nil_of_length_eq_zero (Nat.le_zero.mp hlen)
    subst this
    rw [subAux_nil] at h
    cases List.prefix_nil.mp h
  | succ g =>
    cases xs with
    | nil =>
      rw [subAux_nil] at h
      cases List.prefix_nil.mp h
    | cons c cs =>
      cases hm : matchPlaceholder (c :: cs) with
      | some pr =>
        obtain ⟨ds, rest⟩ := pr
        rw [subAux_cons_match g _ ds rest hm] at h
        rw [show replMarker ds ++ subAux g rest =
          '<' :: ("sup>[".data ++ ds ++ "]</sup>".data ++ subAux g rest) from by
            rw [replMarker]; simp] at h
        rw [List.cons_prefix_cons] at h
        exact absurd h.1 ha
      | none =>
        rw [subAux_cons_nomatch g c cs hm, List.cons_prefix_cons] at h
        obtain ⟨rfl, ht⟩ := h
        exact ⟨g, cs, rfl, rfl, by simpa using Nat.le_of_succ_le_succ hlen, ht⟩

theorem subAux_no_occ (f : Nat) : ∀ l : List Char, l.length ≤ f →
    ¬ occ3 <:+: subAux f l := by
  induction f with
  | zero =>
    intro l hl hocc
    have hnil : l = [] := List.eq_nil_of_length_eq_zero (Nat.le_zero.mp hl)
    subst hnil
    rw [subAux_nil] at hocc
    obtain ⟨s, t, hst⟩ := hocc
    simp [occ3] at hst
  | succ f ih =>
    intro l hl hocc
    cases l with
    | nil =>
      rw [subAux_nil] at hocc
      obtain ⟨s, t, hst⟩ := hocc
      simp [occ3] at hst
    | cons c cs =>
      have hl2 : cs.length + 1 ≤ f + 1 := by simpa using hl
      cases hm : matchPlaceholder (c :: cs) with
      | some pr =>
        obtain ⟨ds, rest⟩ := pr
        rw [subAux_cons_match f _ ds rest hm] at hocc
        obtain ⟨hne, hds, hshape⟩ := matchPlaceholder_some hm
        have hlen2 := congrArg List.length hshape
        simp [List.length_append] at hlen2
        have hrest_len : rest.length ≤ f := by omega
        rcases infix_append_split hocc with hA | hB | ⟨p1, p2, hp, hp1ne, hp2ne, hp1, hp2⟩
        · exact pct_not_mem_replMarker ds hds (mem_of_infx hA (by simp [occ3]))
        · exact ih rest hrest_len hB
        · obtain ⟨⟨t1, rfl⟩, _⟩ := straddle_facts hp hp1ne hp2ne
          exact pct_not_mem_replMarker ds hds (mem_of_sfx hp1 (by simp))
      | none =>
        rw [subAux_cons_nomatch f c cs hm] at hocc
        rcases List.infix_cons_iff.mp hocc with hpre | htail
        · have hpre2 : ('%' : Char) :: ['[', '3', ']', '%'] <+: c :: subAux f cs := hpre
          rw [List.cons_prefix_cons] at hpre2
          obtain ⟨hc, hrest⟩ := hpre2
          subst hc
          have hcs_len : cs.length ≤ f := by omega
          obtain ⟨g1, cs1, hf1, hcs1, hlen1, hq1⟩ :=
            subAux_prefix_peel f cs '[' ['3', ']', '%'] hcs_len (by decide) hrest
          obtain ⟨g2, cs2, hf2, hcs2, hlen2, hq2⟩ :=
            subAux_prefix_peel g1 cs1 '3' [']', '%'] hlen1 (by decide) hq1
          obtain ⟨g3, cs3, hf3, hcs3, hlen3, hq3⟩ :=
            subAux_prefix_peel g2 cs2 ']' ['%'] hlen2 (by decide) hq2
          obtain ⟨g4, cs4, hf4, hcs4, hlen4, hq4⟩ :=
            subAux_prefix_peel g3 cs3 '%' [] hlen3 (by decide) hq3
          subst hcs1 hcs2 hcs3 hcs4
          rw [show matchPlaceholder ('%' :: '[' :: '3' :: ']' :: '%' :: cs4) =
            some (['3'], cs4) from rfl] at hm
          cases hm
        · exact ih cs (by omega) htail

theorem subAux_keeps_marker (f : Nat) : ∀ l : List Char, l.length ≤ f →
    occ3 <:+: l → mk3 <:+: subAux f l := by
  induction f with
  | zero =>
    intro l hl hocc
    have hnil : l = [] := List.eq_nil_of_length_eq_zero (Nat.le_zero.mp hl)
    subst hnil
    obtain ⟨s, t, hst⟩ := hocc
    simp [occ3] at hst
  | succ f ih =>
    intro l hl hocc
    cases l with
    | nil =>
      obtain ⟨s, t, hst⟩ := hocc
      simp [occ3] at hst
    | cons c cs =>
      have hl2 : cs.length + 1 ≤ f + 1 := by simpa using hl
      cases hm : matchPlaceholder (c :: cs) with
      | some pr =>
        obtain ⟨ds, rest⟩ := pr
        rw [subAux_cons_match f _ ds rest hm]
        obtain ⟨hne, hds, hshape⟩ := matchPlaceholder_some hm
        have hlen2 := congrArg List.length hshape
        simp [List.length_append] at hlen2
        have hrest_len : rest.length ≤ f := by omega
        have hmatched : c :: cs = ('%' :: '[' :: (ds ++ [']', '%'])) ++ rest := by
          rw [hshape]
          simp
        rw [hmatched] at hocc
        rcases infix_append_split hocc with hA | hB | ⟨p1, p2, hp, hp1ne, hp2ne, hp1, hp2⟩
        · obtain ⟨s, t2, hst⟩ := hA
          have hsuf : (occ3 ++ t2) <:+ ('%' :: '[' :: (ds ++ [']', '%'])) :=
            ⟨s, by rw [← List.append_assoc]; exact hst⟩
          have hhead : (occ3 ++ t2).head? = some '%' := rfl
          rcases pct_suffix ds hds (occ3 ++ t2) hsuf hhead with heq | heq
          · have hlen5 := congrArg List.length heq
            simp [occ3] at hlen5
          · have heq2 : ('3' :: ']' :: '%' :: t2 : List Char) = ds ++ [']', '%'] := by
              have h3 := heq
              rw [show occ3 ++ t2 = '%' :: '[' :: ('3' :: ']' :: '%' :: t2) from rfl] at h3
              simpa using h3
            have hds3 : ds = ['3'] := by
              cases ds with
              | nil => exact absurd rfl hne
              | cons d ds2 =>
                rw [List.cons_append] at heq2
                injection heq2 with hd hrest2
                subst hd
                cases ds2 with
                | nil => rfl
                | cons e ds3 =>
                  rw [List.cons_append] at hrest2
                  injection hrest2 with he hrest3
                  have hde := hds e (by simp)
                  rw [← he] at hde
                  exact absurd hde (by decide)
            subst hds3
            exact infx_of_left _ (by decide)
        · exact infx_of_right _ (ih rest hrest_len hB)
        · obtain ⟨⟨t1, hp1eq⟩, _⟩ := straddle_facts hp hp1ne hp2ne
          have hp1head : p1.head? = some '%' := by rw [hp1eq]; rfl
          rcases pct_suffix ds hds p1 hp1 hp1head with heq | heq
          · have hp2eq : p2 = ['[', '3', ']', '%'] := by
              rw [heq] at hp
              rw [show occ3 = '%' :: ['[', '3', ']', '%'] from rfl] at hp
              rw [List.singleton_append] at hp
              injection hp with hp5a hp5
              exact hp5.symm
            rw [hp2eq] at hp2
            obtain ⟨u, hu⟩ := hp2
            apply infx_of_right
            rw [← hu]
            have hflen : 4 + u.length ≤ f := by
              rw [← hu] at hrest_len
              simp at hrest_len
              omega
            obtain ⟨g, hg⟩ : ∃ g, f = g + 4 := ⟨f - 4, by omega⟩
            subst hg
            have e1 : subAux (g + 4) (('[' :: '3' :: ']' :: '%' :: []) ++ u) =
                '[' :: subAux (g + 3) ('3' :: ']' :: '%' :: u) :=
              subAux_cons_nomatch (g + 3) '[' ('3' :: ']' :: '%' :: u) rfl
            have e2 : subAux (g + 3) ('3' :: ']' :: '%' :: u) =
                '3' :: subAux (g + 2) (']' :: '%' :: u) :=
              subAux_cons_nomatch (g + 2) '3' (']' :: '%' :: u) rfl
            have e3 : subAux (g + 2) (']' :: '%' :: u) =
                ']' :: subAux (g + 1) ('%' :: u) :=
              subAux_cons_nomatch (g + 1) ']' ('%' :: u) rfl
            rw [e1, e2, e3]
            exact infx_of_pfx ⟨subAux (g + 1) ('%' :: u), rfl⟩
          · have hlp := congrArg List.length hp
            have hlp1 := congrArg List.length heq
            have hdsp : 0 < ds.length := List.length_pos.mpr hne
            have hp2p : 0 < p2.length := List.length_pos.mpr hp2ne
            simp [occ3] at hlp hlp1
            omega
      | none =>
        rw [subAux_cons_nomatch f c cs hm]
        rcases List.infix_cons_iff.mp hocc with hpre | htail
        · have hpre2 : ('%' : Char) :: ['[', '3', ']', '%'] <+: c :: cs := hpre
          rw [List.cons_prefix_cons] at hpre2
          obtain ⟨hc, hrest⟩ := hpre2
          subst hc
          obtain ⟨u, hu⟩ := hrest
          subst hu
          rw [show matchPlaceholder ('%' :: ((['[', '3', ']', '%'] : List Char) ++ u)) =
            some (['3'], u) from rfl] at hm
          cases hm
        · exact infx_cons c (ih cs (by omega) htail)

theorem digitChar_isDigit (d : Nat) (hd : d < 10) : (digitChar d).isDigit = true := by
  interval_cases d <;> decide

theorem natDigitsAux_digits (f : Nat) : ∀ n acc, (∀ c ∈ acc, c.isDigit = true) →
    ∀ c ∈ natDigitsAux f n acc, c.isDigit = true := by
  induction f with
  | zero =>
    intro n acc hacc c hc
    cases n <;> exact hacc c hc
  | succ f ih =>
    intro n acc hacc c hc
    cases n with
    | zero => exact hacc c hc
    | succ m =>
      refine ih ((m + 1) / 10) _ ?_ c hc
      intro c2 hc2
      rcases List.mem_cons.mp hc2 with rfl | hmem
      · exact digitChar_isDigit _ (Nat.mod_lt _ (by omega))
      · exact hacc c2 hmem

theorem natRepr_digits (n : Nat) : ∀ c ∈ natRepr n, c.isDigit = true := by
  intro c hc
  rw [natRepr] at hc
  split at hc
  · simp at hc
    subst hc
    decide
  · exact natDigitsAux_digits (n + 1) n [] (by simp) c hc

theorem pct_not_mem_linePre (n : Nat) :
    '%' ∉ ("\n<br>".data ++ (citationMarker n).data ++ " ".data) := by
  intro hmem
  rw [List.mem_append, List.mem_append] at hmem
  rcases hmem with (hmem | hmem) | hmem
  · exact absurd hmem (by decide)
  · rw [show (citationMarker n).data =
      "[".data ++ natRepr n ++ "]".data from by simp [citationMarker, String.data_append]] at hmem
    rw [List.mem_append, List.mem_append] at hmem
    rcases hmem with (hmem | hmem) | hmem
    · exact absurd hmem (by decide)
    · exact absurd (natRepr_digits n '%' hmem) (by decide)
    · exact absurd hmem (by decide)
  · exact absurd hmem (by decide)

theorem refLine_data (n : Nat) (r : RetrievedReference) :
    (refLine n r).data =
      ("\n<br>".data ++ (citationMarker n).data ++ " ".data) ++
        r.location.s3Location.uri.data := by
  simp [refLine, String.data_append]

theorem no_occ_refLine (n : Nat) (r : RetrievedReference)
    (hclean : ¬ occ3 <:+: r.location.s3Location.uri.data) :
    ¬ occ3 <:+: (refLine n r).data := by
  intro hocc
  rw [refLine_data] at hocc
  rcases infix_append_split hocc with hA | hB | ⟨p1, p2, hp, hp1ne, hp2ne, hp1, hp2⟩
  · exact pct_not_mem_linePre n (mem_of_infx hA (by simp [occ3]))
  · exact hclean hB
  · obtain ⟨⟨t1, rfl⟩, _⟩ := straddle_facts hp hp1ne hp2ne
    exact pct_not_mem_linePre n (mem_of_sfx hp1 (by simp))

theorem refLine_head (n : Nat) (r : RetrievedReference) :
    (refLine n r).data.head? = some '\n' := by
  rw [refLine_data]
  rfl

theorem head?_append_of_head? {a b : List Char} {c : Char} (h : a.head? = some c) :
    (a ++ b).head? = some c := by
  cases a with
  | nil => cases h
  | cons x t => simpa using h

theorem refsLocs_head (rs : List RetrievedReference) (n : Nat) :
    (refsLocsFrom n rs).1.data = [] ∨ (refsLocsFrom n rs).1.data.head? = some '\n' := by
  cases rs with
  | nil => exact Or.inl rfl
  | cons r rs2 =>
    right
    show (refLine n r ++ (refsLocsFrom (n + 1) rs2).1).data.head? = _
    rw [String.data_append]
    exact head?_append_of_head? (refLine_head n r)

theorem no_occ_refsLocs (rs : List RetrievedReference) : ∀ n : Nat,
    (∀ r ∈ rs, ¬ occ3 <:+: r.location.s3Location.uri.data) →
    ¬ occ3 <:+: (refsLocsFrom n rs).1.data := by
  induction rs with
  | nil =>
    intro n hclean hocc
    obtain ⟨s, t, hst⟩ := hocc
    simp [occ3, refsLocsFrom] at hst
  | cons r rs2 ih =>
    intro n hclean hocc
    rw [show (refsLocsFrom n (r :: rs2)).1 =
      refLine n r ++ (refsLocsFrom (n + 1) rs2).1 from rfl, String.data_append] at hocc
    rcases infix_append_split hocc with hA | hB | ⟨p1, p2, hp, hp1ne, hp2ne, hp1, hp2⟩
    · exact no_occ_refLine n r (hclean r (by simp)) hA
    · exact ih (n + 1) (fun r2 hr2 => hclean r2 (by simp [hr2])) hB
    · obtain ⟨hp1pct, hheads⟩ := straddle_facts hp hp1ne hp2ne
      cases p2 with
      | nil => exact absurd rfl hp2ne
      | cons c2 t2 =>
        have hc2 : c2 ∈ (['[', '3', ']', '%'] : List Char) := hheads c2 t2 rfl
        obtain ⟨u, hu⟩ := hp2
        rcases refsLocs_head rs2 (n + 1) with hnil | hhd
        · rw [hnil] at hu
          simp at hu
        · rw [← hu, List.cons_append, List.head?_cons, Option.some.injEq] at hhd
          rw [hhd] at hc2
          exact absurd hc2 (by decide)

theorem citationLocs_head (cits : List Citation) : ∀ n : Nat,
    (citationLocsFrom n cits).1.data = [] ∨
    (citationLocsFrom n cits).1.data.head? = some '\n' := by
  induction cits with
  | nil => intro n; exact Or.inl rfl
  | cons c cs ih =>
    intro n
    rcases refsLocs_head c.retrievedReferences n with hnil | hhd
    · rcases ih (refsLocsFrom n c.retrievedReferences).2 with hnil2 | hhd2
      · left
        show ((refsLocsFrom n c.retrievedReferences).1 ++
          (citationLocsFrom (refsLocsFrom n c.retrievedReferences).2 cs).1).data = []
        rw [String.data_append, hnil, hnil2]
        rfl
      · right
        show ((refsLocsFrom n c.retrievedReferences).1 ++
          (citationLocsFrom (refsLocsFrom n c.retrievedReferences).2 cs).1).data.head? = _
        rw [String.data_append, hnil, List.nil_append]
        exact hhd2
    · right
      show ((refsLocsFrom n c.retrievedReferences).1 ++
        (citationLocsFrom (refsLocsFrom n c.retrievedReferences).2 cs).1).data.head? = _
      rw [String.data_append]
      exact head?_append_of_head? hhd

theorem no_occ_citationLocs (cits : List Citation) : ∀ n : Nat,
    (∀ c ∈ cits, ∀ r ∈ c.retrievedReferences, ¬ occ3 <:+: r.location.s3Location.uri.data) →
    ¬ occ3 <:+: (citationLocsFrom n cits).1.data := by
  induction cits with
  | nil =>
    intro n hclean hocc
    obtain ⟨s, t, hst⟩ := hocc
    simp [occ3, citationLocsFrom] at hst
  | cons c cs ih =>
    intro n hclean hocc
    rw [show (citationLocsFrom n (c :: cs)).1 =
      (refsLocsFrom n c.retrievedReferences).1 ++
        (citationLocsFrom (refsLocsFrom n c.retrievedReferences).2 cs).1 from rfl,
      String.data_append] at hocc
    rcases infix_append_split hocc with hA | hB | ⟨p1, p2, hp, hp1ne, hp2ne, hp1, hp2⟩
    · exact no_occ_refsLocs c.retrievedReferences n (fun r hr => hclean c (by simp) r hr) hA
    · exact ih _ (fun c2 hc2 r hr => hclean c2 (by simp [hc2]) r hr) hB
    · obtain ⟨hp1pct, hheads⟩ := straddle_facts hp hp1ne hp2ne
      cases p2 with
      | nil => exact absurd rfl hp2ne
      | cons c2 t2 =>
        have hc2 : c2 ∈ (['[', '3', ']', '%'] : List Char) := hheads c2 t2 rfl
        obtain ⟨u, hu⟩ := hp2
        rcases citationLocs_head cs (refsLocsFrom n c.retrievedReferences).2 with hnil | hhd
        · rw [hnil] at hu
          simp at hu
        · rw [← hu, List.cons_append, List.head?_cons, Option.some.injEq] at hhd
          rw [hhd] at hc2
          exact absurd hc2 (by decide)

/-- C8 counterexample: with text `%[3]%` and the non-empty citations list
whose single reference URI is the literal `%[3]%`, the injector's output
contains `%[3]%` — the appended location line reproduces the URI — so
the claim's "does not contain %[3]%" fails for this citations list. -/
theorem c8_counterexample :
    strHasSub (injectCitations "%[3]%" [⟨.null, [⟨⟨⟨"%[3]%"⟩⟩⟩]⟩]) "%[3]%" = true := by
  decide

/-- C8 (amended): for every text containing `%[3]%` and every non-empty
citations list none of whose reference URIs contains `%[3]%`, the
injector's output contains the literal marker `[3]` and does not contain
`%[3]%` (without the URI restriction, an appended location line can
reintroduce the literal). -/
theorem c8_marker_rewrite (text : String) (citations : List Citation)
    (hne : citations ≠ [])
    (hocc : occ3 <:+: text.data)
    (hclean : ∀ c ∈ citations, ∀ r ∈ c.retrievedReferences,
      ¬ occ3 <:+: r.location.s3Location.uri.data) :
    mk3 <:+: (injectCitations text citations).data ∧
    ¬ occ3 <:+: (injectCitations text citations).data := by
  have hlen : 0 < citations.length := List.length_pos.mpr hne
  rw [injectCitations, if_pos hlen, String.data_append, String.data_append]
  have hsub : (subPlaceholdersStr text).data = subAux text.data.length text.data := rfl
  constructor
  · apply infx_of_left
    apply infx_of_left
    rw [hsub]
    exact subAux_keeps_marker text.data.length text.data (Nat.le_refl _) hocc
  · intro hocc2
    rcases infix_append_split hocc2 with hA | hB | ⟨p1, p2, hp, hp1ne, hp2ne, hp1, hp2⟩
    · rcases infix_append_split hA with hA1 | hA2 | ⟨q1, q2, hq, hq1ne, hq2ne, hq1, hq2⟩
      · rw [hsub] at hA1
        exact subAux_no_occ text.data.length text.data (Nat.le_refl _) hA1
      · obtain ⟨s, t, hst⟩ := hA2
        have hlen2 := congrArg List.length hst
        simp [occ3] at hlen2
        omega
      · obtain ⟨hq1pct, hheads⟩ := straddle_facts hq hq1ne hq2ne
        cases q2 with
        | nil => exact absurd rfl hq2ne
        | cons c2 t2 =>
          have hc2 : c2 ∈ (['[', '3', ']', '%'] : List Char) := hheads c2 t2 rfl
          obtain ⟨u, hu⟩ := hq2
          rw [show ("\n".data : List Char) = ['\n'] from rfl] at hu
          rw [List.cons_append] at hu
          injection hu with hc2eq hrest
          rw [hc2eq] at hc2
          exact absurd hc2 (by decide)
    · exact no_occ_citationLocs citations 1 hclean hB
    · obtain ⟨hp1pct, hheads⟩ := straddle_facts hp hp1ne hp2ne
      cases p2 with
      | nil => exact absurd rfl hp2ne
      | cons c2 t2 =>
        have hc2 : c2 ∈ (['[', '3', ']', '%'] : List Char) := hheads c2 t2 rfl
        obtain ⟨u, hu⟩ := hp2
        rcases citationLocs_head citations 1 with hnil | hhd
        · rw [hnil] at hu
          simp at hu
        · rw [← hu, List.cons_append, List.head?_cons, Option.some.injEq] at hhd
          rw [hhd] at hc2
          exact absurd hc2 (by decide)

theorem c8_witness :
    mk3 <:+: (injectCitations "hi %[3]%" [⟨.null, [⟨⟨⟨"s3://doc"⟩⟩⟩]⟩]).data ∧
    ¬ occ3 <:+: (injectCitations "hi %[3]%" [⟨.null, [⟨⟨⟨"s3://doc"⟩⟩⟩]⟩]).data :=
  c8_marker_rewrite "hi %[3]%" [⟨.null, [⟨⟨⟨"s3://doc"⟩⟩⟩]⟩]
    (by decide) (by decide) (by decide)
